import Mathlib

/-!
Verification of the generator cost-curve transformation engine
(`modcost` / `polyshift` from `pypower/modcost.py`).

The cost table is embedded as a list of rows, each row a list of rationals
(`List (List ℚ)`); machine floats are modelled by exact rational arithmetic.
Row layout follows the cost-row schema: the model tag, the coefficient
count and the first coefficient column sit at fixed column indices, and the
two model tags are numeric codes.  NumPy strided slice assignments are
embedded as index-conditional rewrites of a whole row (`rowMap`), which
preserves row length by construction, exactly as assignment into a slice of
a fixed-width array does.  The diagnostic write to `stderr` on an invalid
mode tag is modelled by a boolean flag returned next to the table.
-/

/-- Modelled from the spec: row-layout constants of the cost-row schema
(module `idx_cost`, which is not part of the analysed sources): column of
the model tag. -/
def MODEL : ℕ := 0

/-- Modelled from the spec: column holding the number of meaningful
coefficients (polynomial) or breakpoint pairs (piecewise linear). -/
def NCOST : ℕ := 3

/-- Modelled from the spec: first coefficient / breakpoint column. -/
def COST : ℕ := 4

/-- Modelled from the spec: numeric tag of a piecewise-linear row. -/
def PW_LINEAR : ℚ := 1

/-- Modelled from the spec: numeric tag of a polynomial row. -/
def POLYNOMIAL : ℚ := 2

/-- The `NCOST` field is stored as a rational but used as an integer count
(`astype(int)` in the source); negative counts behave like empty ranges. -/
def natOf (q : ℚ) : ℕ := q.floor.toNat

/-- Running prefix sums, as NumPy `cumsum` on a one-dimensional vector. -/
def cumsum : List ℚ → List ℚ
  | [] => []
  | x :: xs => x :: (cumsum xs).map (fun y => x + y)

/-- Dot product of two equal-length vectors, as NumPy `dot`. -/
def dot (u v : List ℚ) : ℚ := (List.zipWith (fun x y => x * y) u v).sum

/-- One iteration of the `polyshift` loop: with `n = len(c)` and `A` the
vector of powers of `-a`, iteration `k` sets `d[n-k-1]` to the dot product
of the running binomial vector `b` with the elementwise product of the
reversed slice `c[n-k-1::-1]` and `A[:n-k]`, then contracts `b` to
`cumsum(b[:n-k-1])`.  The state `db` carries `(d, b)`. -/
def shiftStep (c : List ℚ) (a : ℚ) (db : List ℚ × List ℚ) (k : ℕ) : List ℚ × List ℚ :=
  let n := c.length
  let A := (List.range n).map (fun j => (-a) ^ j)
  (db.1.set (n - k - 1)
     (dot db.2
       (List.zipWith (fun x y => x * y) ((c.take (n - k)).reverse) (A.take (n - k)))),
   cumsum (db.2.take (n - k - 1)))

/-- Coefficients of the horizontally shifted polynomial, translated from
`polyshift` in `modcost.py`: `d` starts as zeros, `b` as all ones, and the
loop body `shiftStep` runs for `k = 0, …, n-1`. -/
def polyshift (c : List ℚ) (a : ℚ) : List ℚ :=
  ((List.range c.length).foldl (shiftStep c a)
    (List.replicate c.length 0, List.replicate c.length 1)).1

/-- Descending-degree polynomial evaluation by Horner's rule, as NumPy
`polyval`: the evaluation map the spec states the shift law with. -/
def polyval (c : List ℚ) (x : ℚ) : ℚ := List.foldl (fun acc ci => acc * x + ci) 0 c

/-- Rebuild a row by rewriting each slot from its index and previous value;
this is how a strided slice assignment acts on one row of a fixed-width
array (slots outside the slice keep their value, length is unchanged). -/
def rowMap (f : ℕ → ℚ → ℚ) (row : List ℚ) : List ℚ :=
  (List.range row.length).map (fun j => f j (row.getD j 0))

/-- Polynomial row under `SCALE_F`: `gencost[ipol, COST:m] = alpha * c`
rescales every slot from `COST` to the end of the row. -/
def polRowScaleF (alpha : ℚ) (row : List ℚ) : List ℚ :=
  rowMap (fun j v => if COST ≤ j then alpha * v else v) row

/-- Piecewise-linear row under `SCALE_F`: slice `COST+1:m:2` (the cost
coordinates) is rescaled, over the whole row width. -/
def pwlRowScaleF (alpha : ℚ) (row : List ℚ) : List ℚ :=
  rowMap (fun j v => if COST + 1 ≤ j ∧ (j - (COST + 1)) % 2 = 0 then alpha * v else v) row

/-- Polynomial row under `SCALE_X`: slot `COST+i` becomes
`c[i] / alpha^(n-i-1)` for `i < n`, reading the pre-call values. -/
def polRowScaleX (alpha : ℚ) (row : List ℚ) : List ℚ :=
  let n := natOf (row.getD NCOST 0)
  rowMap (fun j v => if COST ≤ j ∧ j < COST + n then v / alpha ^ (n - (j - COST) - 1) else v) row

/-- Piecewise-linear row under `SCALE_X`: slice `COST:m-1:2` (the power
coordinates) is rescaled. -/
def pwlRowScaleX (alpha : ℚ) (row : List ℚ) : List ℚ :=
  rowMap (fun j v =>
    if COST ≤ j ∧ j + 1 < row.length ∧ (j - COST) % 2 = 0 then alpha * v else v) row

/-- Polynomial row under `SHIFT_F`: only slot `COST+n-1` is written, with
`alpha + c[n-1]`; for `n = 0` the Python index `-1` reads the last slot. -/
def polRowShiftF (alpha : ℚ) (row : List ℚ) : List ℚ :=
  let n := natOf (row.getD NCOST 0)
  let cLast := if n = 0 then row.getD (row.length - 1) 0 else row.getD (COST + n - 1) 0
  rowMap (fun j v => if j = COST + n - 1 then alpha + cLast else v) row

/-- Piecewise-linear row under `SHIFT_F`: slice `COST+1:m:2` is shifted. -/
def pwlRowShiftF (alpha : ℚ) (row : List ℚ) : List ℚ :=
  rowMap (fun j v => if COST + 1 ≤ j ∧ (j - (COST + 1)) % 2 = 0 then alpha + v else v) row

/-- Polynomial row under `SHIFT_X`: slots `COST:COST+n` are replaced by
`polyshift` of the active coefficients `c[:n]`. -/
def polRowShiftX (alpha : ℚ) (row : List ℚ) : List ℚ :=
  let n := natOf (row.getD NCOST 0)
  let d := polyshift (((row.drop COST).take n)) alpha
  rowMap (fun j v => if COST ≤ j ∧ j < COST + n then d.getD (j - COST) 0 else v) row

/-- Piecewise-linear row under `SHIFT_X`: slice `COST:m-1:2` is shifted. -/
def pwlRowShiftX (alpha : ℚ) (row : List ℚ) : List ℚ :=
  rowMap (fun j v =>
    if COST ≤ j ∧ j + 1 < row.length ∧ (j - COST) % 2 = 0 then alpha + v else v) row

/-- Dispatch of one row of the table: rows are partitioned by the model
tag (`find` on the `MODEL` column) and each partition is rewritten by the
mode-specific slice assignment; rows carrying any other tag belong to
neither partition and are left as they are.  The source's vectorised
fancy-indexed assignments act row-independently, so they are embedded
row by row. -/
def transformRow (modtype : String) (alpha : ℚ) (row : List ℚ) : List ℚ :=
  if row.getD MODEL 0 = POLYNOMIAL then
    if modtype = "SCALE_F" then polRowScaleF alpha row
    else if modtype = "SCALE_X" then polRowScaleX alpha row
    else if modtype = "SHIFT_F" then polRowShiftF alpha row
    else polRowShiftX alpha row
  else if row.getD MODEL 0 = PW_LINEAR then
    if modtype = "SCALE_F" then pwlRowScaleF alpha row
    else if modtype = "SCALE_X" then pwlRowScaleX alpha row
    else if modtype = "SHIFT_F" then pwlRowShiftF alpha row
    else pwlRowShiftX alpha row
  else row

/-- The four recognized mode tags of `modcost`. -/
def validModtype (modtype : String) : Bool :=
  modtype = "SCALE_F" || modtype = "SCALE_X" || modtype = "SHIFT_F" || modtype = "SHIFT_X"

/-- Translation of `modcost`: works on a copy of the table, and if the
table is nonempty either applies the mode-specific transformation to every
row or, for an unrecognized mode tag, writes a warning to `stderr` —
returned here as a boolean flag next to the (then unchanged) table. -/
def modcost (gencost : List (List ℚ)) (alpha : ℚ) (modtype : String) :
    List (List ℚ) × Bool :=
  if gencost.length ≠ 0 then
    if validModtype modtype then
      (gencost.map (fun row => transformRow modtype alpha row), false)
    else
      (gencost, true)
  else
    (gencost, false)

/-- A store of arrays addressed by allocation index, to make the aliasing
behaviour of `gencost = gencost.copy()` observable: NumPy arrays are
mutable heap objects, so mutation of the argument would show up at the
caller's reference. -/
structure Heap where
  arrays : List (List (List ℚ))

/-- Contents of the array a reference designates. -/
def readArr (h : Heap) (r : ℕ) : List (List ℚ) := h.arrays.getD r []

/-- Overwrite the array a reference designates. -/
def writeArr (h : Heap) (r : ℕ) (v : List (List ℚ)) : Heap := ⟨h.arrays.set r v⟩

/-- Allocate a fresh array initialised with the given contents and return
its reference. -/
def allocArr (h : Heap) (v : List (List ℚ)) : Heap × ℕ :=
  (⟨h.arrays ++ [v]⟩, h.arrays.length)

/-- Reference-level translation of `modcost`: `gencost = gencost.copy()`
allocates a fresh array holding a copy of the argument contents, all
subsequent slice assignments hit that fresh array, and its reference is
returned. -/
def modcostRef (h : Heap) (r : ℕ) (alpha : ℚ) (modtype : String) : Heap × ℕ :=
  let hg := allocArr h (readArr h r)
  (writeArr hg.1 hg.2 (modcost (readArr hg.1 hg.2) alpha modtype).1, hg.2)

/-- Closed form of the `polyshift` output: entry `idx` (descending-degree
position) is the binomial-weighted combination of the inputs of lower
position, with weights `C(n-1-idx+j, j) (-a)^j`. -/
def shiftEntry (c : List ℚ) (a : ℚ) (idx : ℕ) : ℚ :=
  ∑ j ∈ Finset.range (idx + 1),
    (Nat.choose (c.length - 1 - idx + j) j : ℚ) * c.getD (idx - j) 0 * (-a) ^ j

theorem getD_eq_get {α : Type} (d : α) {l : List α} {i : ℕ} (h : i < l.length) :
    l.getD i d = l[i] := by
  simp [List.getD_eq_getElem?_getD, List.getElem?_eq_getElem h]

theorem mapRange_length (t : ℕ) (f : ℕ → ℚ) : ((List.range t).map f).length = t := by
  simp

theorem mapRange_getElemQ (t : ℕ) (f : ℕ → ℚ) (n : ℕ) :
    ((List.range t).map f)[n]? = if n < t then some (f n) else none := by
  by_cases h : n < t
  · rw [List.getElem?_eq_getElem (by simpa using h)]
    simp [h]
  · rw [List.getElem?_eq_none (by simpa using Nat.le_of_not_lt h)]
    simp [h]

theorem mapRange_getD {t i : ℕ} (f : ℕ → ℚ) (h : i < t) :
    ((List.range t).map f).getD i 0 = f i := by
  simp [List.getD_eq_getElem?_getD, mapRange_getElemQ, h]

theorem mapRange_congr {t : ℕ} {f g : ℕ → ℚ} (h : ∀ i, i < t → f i = g i) :
    (List.range t).map f = (List.range t).map g := by
  apply List.ext_getElem?
  intro n
  rw [mapRange_getElemQ, mapRange_getElemQ]
  by_cases hn : n < t
  · simp [hn, h n hn]
  · simp [hn]

theorem mapRange_succ (t : ℕ) (f : ℕ → ℚ) :
    (List.range (t + 1)).map f = f 0 :: (List.range t).map (fun j => f (j + 1)) := by
  rw [List.range_succ_eq_map, List.map_cons, List.map_map]
  rfl

theorem replicate_eq_mapRange (t : ℕ) (v : ℚ) :
    List.replicate t v = (List.range t).map (fun _ => v) := by
  rw [List.map_const']
  simp

theorem take_mapRange (s t : ℕ) (f : ℕ → ℚ) :
    ((List.range t).map f).take s = (List.range (min s t)).map f := by
  apply List.ext_getElem?
  intro n
  rw [mapRange_getElemQ]
  by_cases hn : n < min s t
  · have hs : n < s := lt_of_lt_of_le hn (min_le_left s t)
    have ht : n < t := lt_of_lt_of_le hn (min_le_right s t)
    rw [List.getElem?_take_of_lt hs, mapRange_getElemQ]
    simp [hn, ht]
  · have hlen : (((List.range t).map f).take s).length ≤ n := by
      simp only [List.length_take, mapRange_length]
      omega
    rw [List.getElem?_eq_none hlen]
    simp [hn]

theorem set_mapRange (t i : ℕ) (v : ℚ) (f : ℕ → ℚ) :
    ((List.range t).map f).set i v
      = (List.range t).map (fun j => if j = i then v else f j) := by
  apply List.ext_getElem?
  intro n
  rw [List.getElem?_set, mapRange_getElemQ, mapRange_getElemQ]
  by_cases hn : n < t
  · by_cases hin : i = n
    · subst hin
      simp [hn, mapRange_length]
    · have : ¬ n = i := fun hc => hin hc.symm
      simp [hin, hn, this]
  · by_cases hin : i = n
    · subst hin
      simp [hn, mapRange_length]
    · simp [hin, hn]

theorem sum_mapRange (t : ℕ) (f : ℕ → ℚ) :
    ((List.range t).map f).sum = ∑ j ∈ Finset.range t, f j := by
  induction t with
  | zero => simp
  | succ n ih =>
      rw [List.range_succ, List.map_append, List.sum_append, Finset.sum_range_succ, ih]
      simp

theorem zipWith_mapRange (t : ℕ) (f g : ℕ → ℚ) :
    List.zipWith (fun x y => x * y) ((List.range t).map f) ((List.range t).map g)
      = (List.range t).map (fun j => f j * g j) := by
  induction t generalizing f g with
  | zero => simp
  | succ n ih =>
      rw [mapRange_succ, mapRange_succ, List.zipWith_cons_cons, ih, mapRange_succ]

theorem dot_mapRange (t : ℕ) (f g : ℕ → ℚ) :
    dot ((List.range t).map f) ((List.range t).map g) = ∑ j ∈ Finset.range t, f j * g j := by
  rw [dot, zipWith_mapRange, sum_mapRange]

theorem cumsum_mapRange (t : ℕ) (f : ℕ → ℚ) :
    cumsum ((List.range t).map f)
      = (List.range t).map (fun i => ∑ j ∈ Finset.range (i + 1), f j) := by
  induction t generalizing f with
  | zero => simp [cumsum]
  | succ n ih =>
      rw [mapRange_succ, cumsum, ih, List.map_map, mapRange_succ]
      congr 1
      · simp
      · apply mapRange_congr
        intro i _
        show f 0 + ∑ j ∈ Finset.range (i + 1), f (j + 1) = _
        rw [Finset.sum_range_succ' f (i + 1)]
        ring

theorem revTake (c : List ℚ) {s : ℕ} (hs : s ≤ c.length) :
    (c.take s).reverse = (List.range s).map (fun j => c.getD (s - 1 - j) 0) := by
  apply List.ext_getElem?
  intro n
  rw [mapRange_getElemQ]
  by_cases hn : n < s
  · have hlt : n < (c.take s).length := by simp; omega
    have h1 : s - 1 - n < s := by omega
    have h2 : s - 1 - n < c.length := by omega
    rw [List.getElem?_eq_getElem (by simpa using hlt), List.getElem_reverse]
    have hlen : (c.take s).length - 1 - n = s - 1 - n := by simp; omega
    simp only [hn, if_true]
    rw [getD_eq_get 0 h2]
    congr 1
    have := List.getElem?_take_of_lt (l := c) (n := s) (m := s - 1 - n) h1
    rw [List.getElem?_eq_getElem (by simp; omega), List.getElem?_eq_getElem h2] at this
    simp only [hlen]
    exact Option.some.inj this
  · rw [List.getElem?_eq_none (by simp; omega)]
    simp [hn]

theorem foldl_range_succ {β : Type} (f : β → ℕ → β) (i : β) (k : ℕ) :
    (List.range (k + 1)).foldl f i = f ((List.range k).foldl f i) k := by
  rw [List.range_succ, List.foldl_append]
  rfl

theorem polyshift_loop_inv (c : List ℚ) (a : ℚ) (k : ℕ) (hk : k ≤ c.length) :
    (List.range k).foldl (shiftStep c a)
        (List.replicate c.length 0, List.replicate c.length 1)
      = ((List.range c.length).map
           (fun idx => if c.length - k ≤ idx then shiftEntry c a idx else 0),
         (List.range (c.length - k)).map (fun j => (Nat.choose (j + k) k : ℚ))) := by
  induction k with
  | zero =>
      rw [List.range_zero, List.foldl_nil, Prod.mk.injEq]
      constructor
      · rw [replicate_eq_mapRange]
        apply mapRange_congr
        intro i hi
        have hni : ¬ c.length ≤ i := by omega
        simp only [Nat.sub_zero]
        rw [if_neg hni]
      · rw [Nat.sub_zero, replicate_eq_mapRange]
        apply mapRange_congr
        intro i _
        simp
  | succ k ih =>
      have hk1 : k ≤ c.length := by omega
      rw [foldl_range_succ, ih hk1, shiftStep, Prod.mk.injEq]
      constructor
      · show ((List.range c.length).map _).set (c.length - k - 1)
            (dot ((List.range (c.length - k)).map _)
              (List.zipWith _ ((c.take (c.length - k)).reverse)
                ((((List.range c.length).map fun j => (-a) ^ j)).take (c.length - k)))) = _
        rw [take_mapRange, revTake c (by omega : c.length - k ≤ c.length)]
        have hmin : min (c.length - k) c.length = c.length - k := by omega
        rw [hmin, zipWith_mapRange, dot_mapRange, set_mapRange]
        apply mapRange_congr
        intro idx hidx
        by_cases hset : idx = c.length - k - 1
        · subst hset
          have hle : c.length - (k + 1) ≤ c.length - k - 1 := by omega
          simp only [if_pos rfl, if_pos hle]
          rw [shiftEntry]
          have hrange : c.length - k - 1 + 1 = c.length - k := by omega
          rw [hrange]
          apply Finset.sum_congr rfl
          intro j hj
          have hcoe : c.length - 1 - (c.length - k - 1) = k := by omega
          rw [hcoe]
          have hchoose : Nat.choose (j + k) k = Nat.choose (k + j) j := by
            have h1 : (j + k) - k = j := by omega
            have h2 := Nat.choose_symm (Nat.le_add_left k j)
            rw [h1] at h2
            rw [← h2, Nat.add_comm k j]
          rw [hchoose]
          ring
        · have hne : ¬ idx = c.length - k - 1 := hset
          simp only [if_neg hne]
          by_cases h2 : c.length - k ≤ idx
          · rw [if_pos h2, if_pos (by omega : c.length - (k + 1) ≤ idx)]
          · rw [if_neg h2, if_neg (by omega : ¬ c.length - (k + 1) ≤ idx)]
      · show cumsum (((List.range (c.length - k)).map _).take (c.length - k - 1)) = _
        rw [take_mapRange]
        have hmin : min (c.length - k - 1) (c.length - k) = c.length - k - 1 := by omega
        rw [hmin, cumsum_mapRange]
        have hlen : c.length - (k + 1) = c.length - k - 1 := by omega
        rw [hlen]
        apply mapRange_congr
        intro i _
        have hcast : (∑ j ∈ Finset.range (i + 1), (Nat.choose (j + k) k : ℚ))
            = ((∑ j ∈ Finset.range (i + 1), Nat.choose (j + k) k : ℕ) : ℚ) := by
          push_cast
          rfl
        rw [hcast, Nat.sum_range_add_choose i k]
        have : i + k + 1 = i + (k + 1) := by omega
        rw [this]

theorem polyshift_eq (c : List ℚ) (a : ℚ) :
    polyshift c a = (List.range c.length).map (fun idx => shiftEntry c a idx) := by
  rw [polyshift, polyshift_loop_inv c a c.length (le_refl _)]
  apply mapRange_congr
  intro idx hidx
  have : c.length - c.length ≤ idx := by omega
  simp [this]

theorem polyshift_length (c : List ℚ) (a : ℚ) : (polyshift c a).length = c.length := by
  rw [polyshift_eq]
  simp

theorem polyshift_getD {c : List ℚ} (a : ℚ) {idx : ℕ} (h : idx < c.length) :
    (polyshift c a).getD idx 0 = shiftEntry c a idx := by
  rw [polyshift_eq, mapRange_getD _ h]

theorem polyval_eq_sum (c : List ℚ) (x : ℚ) :
    polyval c x = ∑ i ∈ Finset.range c.length, c.getD i 0 * x ^ (c.length - 1 - i) := by
  induction c using List.reverseRecOn with
  | nil => simp [polyval]
  | append_singleton c d ih =>
      show List.foldl _ 0 (c ++ [d]) = _
      rw [List.foldl_append]
      show polyval c x * x + d = _
      have hlen : (c ++ [d]).length = c.length + 1 := by simp
      rw [hlen, Finset.sum_range_succ]
      have hlast : (c ++ [d]).getD c.length 0 = d := by
        rw [List.getD_eq_getElem?_getD, List.getElem?_concat_length]
        rfl
      have hil : ∀ i ∈ Finset.range c.length,
          (c ++ [d]).getD i 0 * x ^ (c.length + 1 - 1 - i)
            = c.getD i 0 * x ^ (c.length - 1 - i) * x := by
        intro i hi
        have hic : i < c.length := Finset.mem_range.mp hi
        have hgd : (c ++ [d]).getD i 0 = c.getD i 0 := by
          rw [getD_eq_get 0 (by simp; omega), getD_eq_get 0 hic]
          exact List.getElem_append_left hic
        have hpow : x ^ (c.length + 1 - 1 - i) = x ^ (c.length - 1 - i) * x := by
          have : c.length + 1 - 1 - i = (c.length - 1 - i) + 1 := by omega
          rw [this, pow_succ]
        rw [hgd, hpow]
        ring
      rw [Finset.sum_congr rfl hil, hlast, ← Finset.sum_mul, ← ih]
      have : c.length + 1 - 1 - c.length = 0 := by omega
      rw [this, pow_zero]
      ring

/-- C8: the Polynomial Shift Transform with shift amount 0 returns the
coefficient sequence unchanged: the power vector degenerates to
`(1, 0, 0, …)`, so each output entry collapses to the matching input. -/
theorem polyshift_identity_shift (c : List ℚ) : polyshift c 0 = c := by
  rw [polyshift_eq]
  apply List.ext_getElem?
  intro n
  rw [mapRange_getElemQ]
  by_cases hn : n < c.length
  · rw [List.getElem?_eq_getElem hn, if_pos hn]
    congr 1
    rw [shiftEntry]
    rw [Finset.sum_eq_single 0]
    · rw [Nat.add_zero, Nat.choose_zero_right, Nat.sub_zero, pow_zero]
      rw [getD_eq_get 0 hn]
      push_cast
      ring
    · intro j _ hj0
      have hz : (-(0:ℚ)) ^ j = 0 := by
        rw [neg_zero]
        exact zero_pow hj0
      rw [hz, mul_zero]
    · intro h
      exact absurd (Finset.mem_range.mpr (by omega)) h
  · rw [List.getElem?_eq_none (by omega), if_neg hn]

/-- C1: the round-trip shift law: for every coefficient sequence in
descending-degree order and every shift amount, the output of `polyshift`
has the input's length, and evaluating the output polynomial at `x + a`
equals evaluating the input polynomial at `x`, for all `x`. -/
theorem polyshift_roundtrip (c : List ℚ) (a x : ℚ) :
    (polyshift c a).length = c.length ∧
      polyval (polyshift c a) (x + a) = polyval c x := by
  refine ⟨polyshift_length c a, ?_⟩
  rw [polyval_eq_sum, polyval_eq_sum, polyshift_length]
  have step1 : ∀ idx ∈ Finset.range c.length,
      (polyshift c a).getD idx 0 * (x + a) ^ (c.length - 1 - idx)
        = ∑ i ∈ Finset.range (idx + 1),
            (Nat.choose (c.length - 1 - i) (idx - i) : ℚ) * c.getD i 0 * (-a) ^ (idx - i)
              * (x + a) ^ (c.length - 1 - idx) := by
    intro idx hidx
    rw [polyshift_getD a (Finset.mem_range.mp hidx), shiftEntry, Finset.sum_mul]
    have hrefl := Finset.sum_range_reflect
      (fun j => (Nat.choose (c.length - 1 - idx + j) j : ℚ) * c.getD (idx - j) 0 * (-a) ^ j
        * (x + a) ^ (c.length - 1 - idx)) (idx + 1)
    rw [← hrefl]
    apply Finset.sum_congr rfl
    intro i hi
    have hi1 : i ≤ idx := by
      have := Finset.mem_range.mp hi
      omega
    have hidxn : idx < c.length := Finset.mem_range.mp hidx
    show (Nat.choose (c.length - 1 - idx + (idx + 1 - 1 - i)) (idx + 1 - 1 - i) : ℚ)
        * c.getD (idx - (idx + 1 - 1 - i)) 0 * (-a) ^ (idx + 1 - 1 - i)
        * (x + a) ^ (c.length - 1 - idx) = _
    have e1 : idx + 1 - 1 - i = idx - i := by omega
    have e2 : idx - (idx - i) = i := by omega
    have e3 : c.length - 1 - idx + (idx - i) = c.length - 1 - i := by omega
    rw [e1, e2, e3]
  rw [Finset.sum_congr rfl step1]
  simp only [Finset.range_eq_Ico]
  rw [← Finset.sum_Ico_Ico_comm 0 c.length
    (fun i idx => (Nat.choose (c.length - 1 - i) (idx - i) : ℚ) * c.getD i 0
      * (-a) ^ (idx - i) * (x + a) ^ (c.length - 1 - idx))]
  apply Finset.sum_congr rfl
  intro i hi
  have hin : i < c.length := (Finset.mem_Ico.mp hi).2
  rw [Finset.sum_Ico_eq_sum_range]
  simp only [Nat.add_sub_cancel_left]
  have hsub : ∀ t : ℕ, c.length - 1 - (i + t) = c.length - 1 - i - t := by
    intro t
    omega
  have hD : c.length - i = c.length - 1 - i + 1 := by omega
  rw [hD]
  have hpow := add_pow (-a) (x + a) (c.length - 1 - i)
  have hx : (-a) + (x + a) = x := by ring
  rw [hx] at hpow
  rw [hpow, Finset.mul_sum]
  apply Finset.sum_congr rfl
  intro t ht
  rw [hsub t]
  ring

theorem getD_oob {α : Type} (d : α) {l : List α} {j : ℕ} (h : l.length ≤ j) :
    l.getD j d = d := by
  rw [List.getD_eq_getElem?_getD, List.getElem?_eq_none h]
  rfl

theorem rowMap_length (f : ℕ → ℚ → ℚ) (row : List ℚ) :
    (rowMap f row).length = row.length := by
  rw [rowMap]
  simp

theorem rowMap_getD {row : List ℚ} {j : ℕ} (f : ℕ → ℚ → ℚ) (h : j < row.length) :
    (rowMap f row).getD j 0 = f j (row.getD j 0) := by
  rw [rowMap, mapRange_getD _ h]

theorem rowMap_getElemQ (f : ℕ → ℚ → ℚ) (row : List ℚ) (n : ℕ) :
    (rowMap f row)[n]? = if n < row.length then some (f n (row.getD n 0)) else none := by
  rw [rowMap, mapRange_getElemQ]

theorem transformRow_length (mt : String) (alpha : ℚ) (row : List ℚ) :
    (transformRow mt alpha row).length = row.length := by
  rw [transformRow]
  split_ifs <;>
    simp [polRowScaleF, polRowScaleX, polRowShiftF, polRowShiftX,
      pwlRowScaleF, pwlRowScaleX, pwlRowShiftF, pwlRowShiftX, rowMap_length]

theorem modcost_fst_length (t : List (List ℚ)) (alpha : ℚ) (mt : String) :
    (modcost t alpha mt).1.length = t.length := by
  rw [modcost]
  split_ifs <;> simp

theorem modcost_valid_row (t : List (List ℚ)) (alpha : ℚ) (mt : String) (r : ℕ)
    (hv : validModtype mt = true) (hr : r < t.length) :
    (modcost t alpha mt).1.getD r [] = transformRow mt alpha (t.getD r []) := by
  rw [modcost, if_pos (show t.length ≠ 0 by omega), if_pos hv]
  show (List.map _ t).getD r [] = _
  rw [getD_eq_get [] (by simpa using hr), List.getElem_map, getD_eq_get [] hr]

theorem modcost_row_length (t : List (List ℚ)) (alpha : ℚ) (mt : String) (r : ℕ) :
    ((modcost t alpha mt).1.getD r []).length = (t.getD r []).length := by
  by_cases hr : r < t.length
  · by_cases hv : validModtype mt = true
    · rw [modcost_valid_row t alpha mt r hv hr, transformRow_length]
    · rw [modcost, if_pos (show t.length ≠ 0 by omega), if_neg hv]
  · have h1 : (modcost t alpha mt).1.length ≤ r := by
      rw [modcost_fst_length]
      omega
    rw [getD_oob [] h1, getD_oob [] (by omega)]

/-- C5: for every table, mode and alpha, the table returned by `modcost`
has the same number of rows and each row keeps its column capacity; only
numeric content differs. -/
theorem modcost_shape_preservation (t : List (List ℚ)) (alpha : ℚ) (mt : String) :
    (modcost t alpha mt).1.length = t.length ∧
      ∀ r : ℕ, ((modcost t alpha mt).1.getD r []).length = (t.getD r []).length :=
  ⟨modcost_fst_length t alpha mt, fun r => modcost_row_length t alpha mt r⟩

/-- C9: on a zero-row table `modcost` returns the empty table and raises
no diagnostic for any mode tag, the unrecognized ones included; the
invalid-mode warning can only be emitted when the table has a row. -/
theorem modcost_empty_no_warning (alpha : ℚ) (mt : String) :
    modcost [] alpha mt = ([], false) ∧
      ∀ t : List (List ℚ), (modcost t alpha mt).2 = true → t ≠ [] := by
  constructor
  · rw [modcost]
    simp
  · intro t h ht
    subst ht
    rw [modcost] at h
    simp at h

/-- Witness for C9 at concrete inputs. -/
theorem modcost_empty_no_warning_witness :
    modcost [] 3 "BOGUS" = ([], false) ∧ ([[2, 0, 0, 1, 5, 6]] : List (List ℚ)) ≠ [] :=
  ⟨(modcost_empty_no_warning 3 "BOGUS").1,
   (modcost_empty_no_warning 3 "BOGUS").2 [[2, 0, 0, 1, 5, 6]] (by decide)⟩

/-- C10: a row whose model tag is neither `POLYNOMIAL` nor `PW_LINEAR`
belongs to neither index partition, so `modcost` leaves it unchanged for
every mode and alpha. -/
theorem modcost_other_model_unchanged (t : List (List ℚ)) (alpha : ℚ) (mt : String) (r : ℕ)
    (h1 : (t.getD r []).getD MODEL 0 ≠ POLYNOMIAL)
    (h2 : (t.getD r []).getD MODEL 0 ≠ PW_LINEAR) :
    (modcost t alpha mt).1.getD r [] = t.getD r [] := by
  by_cases hr : r < t.length
  · by_cases hv : validModtype mt = true
    · rw [modcost_valid_row t alpha mt r hv hr, transformRow, if_neg h1, if_neg h2]
    · rw [modcost, if_pos (show t.length ≠ 0 by omega), if_neg hv]
  · have hl : (modcost t alpha mt).1.length ≤ r := by
      rw [modcost_fst_length]
      omega
    rw [getD_oob [] hl, getD_oob [] (by omega)]

/-- Witness for C10 at a concrete row with model tag 5. -/
theorem modcost_other_model_unchanged_witness :
    (modcost [[5, 0, 0, 2, 3, 4]] 7 "SCALE_F").1.getD 0 []
      = ([[5, 0, 0, 2, 3, 4]] : List (List ℚ)).getD 0 [] :=
  modcost_other_model_unchanged [[5, 0, 0, 2, 3, 4]] 7 "SCALE_F" 0 (by decide) (by decide)

theorem polRowScaleX_padding (alpha : ℚ) (row : List ℚ) {j : ℕ}
    (hj : COST + natOf (row.getD NCOST 0) ≤ j) :
    (polRowScaleX alpha row).getD j 0 = row.getD j 0 := by
  simp only [polRowScaleX]
  by_cases hjl : j < row.length
  · rw [rowMap_getD _ hjl, if_neg (by omega)]
  · rw [getD_oob 0 (by rw [rowMap_length]; omega), getD_oob 0 (by omega)]

theorem polRowShiftF_padding (alpha : ℚ) (row : List ℚ) {j : ℕ}
    (hj : COST + natOf (row.getD NCOST 0) ≤ j) :
    (polRowShiftF alpha row).getD j 0 = row.getD j 0 := by
  simp only [polRowShiftF]
  by_cases hjl : j < row.length
  · rw [rowMap_getD _ hjl, if_neg (by have hc : COST = 4 := rfl; omega)]
  · rw [getD_oob 0 (by rw [rowMap_length]; omega), getD_oob 0 (by omega)]

theorem polRowShiftX_padding (alpha : ℚ) (row : List ℚ) {j : ℕ}
    (hj : COST + natOf (row.getD NCOST 0) ≤ j) :
    (polRowShiftX alpha row).getD j 0 = row.getD j 0 := by
  simp only [polRowShiftX]
  by_cases hjl : j < row.length
  · rw [rowMap_getD _ hjl, if_neg (by omega)]
  · rw [getD_oob 0 (by rw [rowMap_length]; omega), getD_oob 0 (by omega)]

/-- C2 counterexample: a polynomial row with `count = 1` and a nonzero
padding slot at column 5; `SCALE_F` with alpha 2 doubles the padding slot,
so the trailing slots are not all identical in input and output. -/
theorem modcost_padding_counterexample :
    ((modcost [[2, 0, 0, 1, 3, 7]] 2 "SCALE_F").1.getD 0 []).getD 5 0
      ≠ (([[2, 0, 0, 1, 3, 7]] : List (List ℚ)).getD 0 []).getD 5 0 := by
  rw [modcost_valid_row [[2, 0, 0, 1, 3, 7]] 2 "SCALE_F" 0 rfl (by decide)]
  have h0 : (([[2, 0, 0, 1, 3, 7]] : List (List ℚ)).getD 0 []) = [2, 0, 0, 1, 3, 7] := rfl
  have h7 : ([2, 0, 0, 1, 3, 7] : List ℚ).getD 5 0 = 7 := rfl
  rw [h0, transformRow,
    if_pos (show ([2, 0, 0, 1, 3, 7] : List ℚ).getD MODEL 0 = POLYNOMIAL from rfl),
    if_pos (show ("SCALE_F" : String) = "SCALE_F" from rfl), polRowScaleF,
    rowMap_getD _ (by decide : (5:ℕ) < ([2, 0, 0, 1, 3, 7] : List ℚ).length),
    if_pos (by decide : COST ≤ 5), h7]
  norm_num

/-- C2 (amended): the padding-frame property holds for polynomial rows
under `SCALE_X`, `SHIFT_F` and `SHIFT_X` only: there the slots at positions
at or beyond `COST + count` are untouched.  Under `SCALE_F` the polynomial
writes cover every slot from `COST` to the end of the row, and the
piecewise-linear strided writes of every mode also run to the end of the
row, so padding at the written stride is modified. -/
theorem modcost_poly_padding_frame (t : List (List ℚ)) (alpha : ℚ) (mt : String) (r j : ℕ)
    (hmt : mt = "SCALE_X" ∨ mt = "SHIFT_F" ∨ mt = "SHIFT_X")
    (hpol : (t.getD r []).getD MODEL 0 = POLYNOMIAL)
    (hj : COST + natOf ((t.getD r []).getD NCOST 0) ≤ j) :
    ((modcost t alpha mt).1.getD r []).getD j 0 = (t.getD r []).getD j 0 := by
  by_cases hr : r < t.length
  · have hv : validModtype mt = true := by
      rcases hmt with h | h | h <;> rw [h] <;> rfl
    rw [modcost_valid_row t alpha mt r hv hr, transformRow, if_pos hpol]
    rcases hmt with h | h | h <;> subst h
    · rw [if_neg (by decide), if_pos rfl]
      exact polRowScaleX_padding alpha _ hj
    · rw [if_neg (by decide), if_neg (by decide), if_pos rfl]
      exact polRowShiftF_padding alpha _ hj
    · rw [if_neg (by decide), if_neg (by decide), if_neg (by decide)]
      exact polRowShiftX_padding alpha _ hj
  · have hl : (modcost t alpha mt).1.length ≤ r := by
      rw [modcost_fst_length]
      omega
    rw [getD_oob [] hl, getD_oob [] (by omega)]

/-- Witness for the amended C2: `SHIFT_X` on a polynomial row with
`count = 2` leaves the padding slot at column 6 unchanged. -/
theorem modcost_poly_padding_frame_witness :
    ((modcost [[2, 0, 0, 2, 1, 1, 9]] 1 "SHIFT_X").1.getD 0 []).getD 6 0
      = (([[2, 0, 0, 2, 1, 1, 9]] : List (List ℚ)).getD 0 []).getD 6 0 :=
  modcost_poly_padding_frame [[2, 0, 0, 2, 1, 1, 9]] 1 "SHIFT_X" 0 6
    (Or.inr (Or.inr rfl)) (by decide) (by decide)

/-- C3: at `SCALE_X` with alpha 0 on a polynomial row with `count = 2`,
the embedded `modcost` returns a table normally — no division-by-zero
failure propagates to the caller.  The leading coefficient is divided by
`0^1`; in this exact-rational model that quotient is 0, while NumPy floats
produce `inf` with only a runtime warning — in neither case an exception. -/
theorem modcost_scale_x_zero_alpha_returns :
    modcost [[2, 0, 0, 2, 1, 1]] 0 "SCALE_X" = ([[2, 0, 0, 2, 0, 1]], false) := by
  rw [modcost, if_pos (by decide : ([[2, 0, 0, 2, 1, 1]] : List (List ℚ)).length ≠ 0),
    if_pos (show validModtype "SCALE_X" = true from rfl)]
  rw [Prod.mk.injEq]
  refine ⟨?_, rfl⟩
  rw [List.map_cons, List.map_nil]
  congr 1
  rw [transformRow,
    if_pos (show ([2, 0, 0, 2, 1, 1] : List ℚ).getD MODEL 0 = POLYNOMIAL from rfl),
    if_neg (show ¬ ("SCALE_X" : String) = "SCALE_F" by decide),
    if_pos (show ("SCALE_X" : String) = "SCALE_X" from rfl)]
  simp only [polRowScaleX]
  have hn : natOf (([2, 0, 0, 2, 1, 1] : List ℚ).getD NCOST 0) = 2 := rfl
  rw [hn]
  apply List.ext_getElem?
  intro n
  rw [rowMap_getElemQ]
  have hlen : ([2, 0, 0, 2, 1, 1] : List ℚ).length = 6 := rfl
  rw [hlen]
  rcases n with _ | _ | _ | _ | _ | _ | n
  · norm_num [COST]
  · norm_num [COST]
  · norm_num [COST]
  · norm_num [COST]
  · norm_num [COST, List.getD]
  · norm_num [COST, List.getD]
  · norm_num

/-- C4 counterexample: on the zero-row table an unrecognized mode emits no
warning, so the claim quantified over every table fails. -/
theorem modcost_invalid_mode_counterexample :
    (modcost ([] : List (List ℚ)) 5 "BOGUS").2 ≠ true := by
  decide

/-- C4 (amended): for every table with at least one row, an unrecognized
mode tag returns the table unchanged and emits the diagnostic; the
zero-row table is returned unchanged without a diagnostic. -/
theorem modcost_invalid_mode_warns (t : List (List ℚ)) (alpha : ℚ) (mt : String)
    (hne : t ≠ []) (hmt : validModtype mt = false) :
    (modcost t alpha mt).1 = t ∧ (modcost t alpha mt).2 = true := by
  have hlen : t.length ≠ 0 := fun h => hne (List.length_eq_zero.mp h)
  rw [modcost, if_pos hlen, if_neg (by rw [hmt]; exact Bool.false_ne_true)]
  exact ⟨rfl, rfl⟩

/-- Witness for the amended C4 at a concrete nonempty table. -/
theorem modcost_invalid_mode_warns_witness :
    (modcost [[2, 0, 0, 1, 5, 6]] 5 "BOGUS").1 = [[2, 0, 0, 1, 5, 6]]
      ∧ (modcost [[2, 0, 0, 1, 5, 6]] 5 "BOGUS").2 = true :=
  modcost_invalid_mode_warns [[2, 0, 0, 1, 5, 6]] 5 "BOGUS" (by decide) (by decide)

/-- C6: `modcost` does not mutate the caller's table: after the call the
caller's reference still holds exactly the values it held before, and the
returned reference is a distinct, freshly allocated array — the behaviour
guaranteed by `gencost = gencost.copy()` before any slice assignment. -/
theorem modcost_no_input_mutation (h : Heap) (r : ℕ) (alpha : ℚ) (mt : String)
    (hr : r < h.arrays.length) :
    readArr (modcostRef h r alpha mt).1 r = readArr h r
      ∧ (modcostRef h r alpha mt).2 ≠ r := by
  simp only [modcostRef, allocArr, readArr, writeArr]
  constructor
  · rw [List.getD_eq_getElem?_getD, List.getElem?_set, if_neg (by omega),
      List.getElem?_append_left hr, List.getD_eq_getElem?_getD]
  · omega

/-- Witness for C6 at a concrete one-array heap. -/
theorem modcost_no_input_mutation_witness :
    readArr (modcostRef ⟨[[[2, 0, 0, 1, 5, 6]]]⟩ 0 2 "SCALE_F").1 0
        = readArr ⟨[[[2, 0, 0, 1, 5, 6]]]⟩ 0
      ∧ (modcostRef ⟨[[[2, 0, 0, 1, 5, 6]]]⟩ 0 2 "SCALE_F").2 ≠ 0 :=
  modcost_no_input_mutation ⟨[[[2, 0, 0, 1, 5, 6]]]⟩ 0 2 "SCALE_F" (by decide)

theorem rowMap_rowMap (f g : ℕ → ℚ → ℚ) (row : List ℚ)
    (hfg : ∀ j, j < row.length → f j (g j (row.getD j 0)) = row.getD j 0) :
    rowMap f (rowMap g row) = row := by
  apply List.ext_getElem?
  intro n
  rw [rowMap_getElemQ, rowMap_length]
  by_cases hn : n < row.length
  · rw [if_pos hn, rowMap_getD g hn, hfg n hn, getD_eq_get 0 hn, List.getElem?_eq_getElem hn]
  · rw [if_neg hn, List.getElem?_eq_none (by omega)]

theorem polRowScaleF_model (alpha : ℚ) (row : List ℚ) :
    (polRowScaleF alpha row).getD MODEL 0 = row.getD MODEL 0 := by
  by_cases h : MODEL < row.length
  · rw [polRowScaleF, rowMap_getD _ h, if_neg (by decide)]
  · rw [getD_oob 0 (by rw [polRowScaleF, rowMap_length]; omega), getD_oob 0 (by omega)]

theorem pwlRowScaleF_model (alpha : ℚ) (row : List ℚ) :
    (pwlRowScaleF alpha row).getD MODEL 0 = row.getD MODEL 0 := by
  by_cases h : MODEL < row.length
  · rw [pwlRowScaleF, rowMap_getD _ h, if_neg (by decide)]
  · rw [getD_oob 0 (by rw [pwlRowScaleF, rowMap_length]; omega), getD_oob 0 (by omega)]

theorem scaleF_scaleF_row (alpha : ℚ) (ha : alpha ≠ 0) (row : List ℚ) :
    transformRow "SCALE_F" (1 / alpha) (transformRow "SCALE_F" alpha row) = row := by
  by_cases hpol : row.getD MODEL 0 = POLYNOMIAL
  · have hinner : transformRow "SCALE_F" alpha row = polRowScaleF alpha row := by
      rw [transformRow, if_pos hpol, if_pos rfl]
    rw [hinner, transformRow,
      if_pos (by rw [polRowScaleF_model]; exact hpol), if_pos rfl,
      polRowScaleF, polRowScaleF]
    apply rowMap_rowMap
    intro j hj
    by_cases hc : COST ≤ j
    · rw [if_pos hc, if_pos hc, one_div, inv_mul_cancel_left₀ ha]
    · rw [if_neg hc, if_neg hc]
  · by_cases hpwl : row.getD MODEL 0 = PW_LINEAR
    · have hinner : transformRow "SCALE_F" alpha row = pwlRowScaleF alpha row := by
        rw [transformRow, if_neg hpol, if_pos hpwl, if_pos rfl]
      rw [hinner, transformRow,
        if_neg (by rw [pwlRowScaleF_model]; exact hpol),
        if_pos (by rw [pwlRowScaleF_model]; exact hpwl), if_pos rfl,
        pwlRowScaleF, pwlRowScaleF]
      apply rowMap_rowMap
      intro j hj
      by_cases hc : COST + 1 ≤ j ∧ (j - (COST + 1)) % 2 = 0
      · rw [if_pos hc, if_pos hc, one_div, inv_mul_cancel_left₀ ha]
      · rw [if_neg hc, if_neg hc]
    · have hinner : transformRow "SCALE_F" alpha row = row := by
        rw [transformRow, if_neg hpol, if_neg hpwl]
      rw [hinner, transformRow, if_neg hpol, if_neg hpwl]

/-- C7: scaling the output by alpha and then by 1/alpha reproduces the
original table exactly (in exact arithmetic), for every table and every
nonzero alpha. -/
theorem modcost_scale_f_inverse (t : List (List ℚ)) (alpha : ℚ) (ha : alpha ≠ 0) :
    (modcost (modcost t alpha "SCALE_F").1 (1 / alpha) "SCALE_F").1 = t := by
  by_cases hne : t.length ≠ 0
  · have hfirst : (modcost t alpha "SCALE_F").1
        = List.map (fun row => transformRow "SCALE_F" alpha row) t := by
      rw [modcost, if_pos hne, if_pos (show validModtype "SCALE_F" = true from rfl)]
    rw [hfirst, modcost, if_pos (by rw [List.length_map]; exact hne),
      if_pos (show validModtype "SCALE_F" = true from rfl)]
    show List.map _ (List.map _ t) = t
    rw [List.map_map]
    have hcomp : ((fun row => transformRow "SCALE_F" (1 / alpha) row)
        ∘ fun row => transformRow "SCALE_F" alpha row) = id :=
      funext fun row => scaleF_scaleF_row alpha ha row
    rw [hcomp, List.map_id]
  · have ht : t = [] := List.length_eq_zero.mp (by omega)
    subst ht
    simp [modcost]

/-- Witness for C7 at a concrete table and alpha = 2. -/
theorem modcost_scale_f_inverse_witness :
    (modcost (modcost [[2, 0, 0, 1, 3, 7]] 2 "SCALE_F").1 (1 / 2) "SCALE_F").1
      = [[2, 0, 0, 1, 3, 7]] :=
  modcost_scale_f_inverse [[2, 0, 0, 1, 3, 7]] 2 (by norm_num)
